import Mathlib

/-!
Verification development for the DEET job-platform core modules:
text normalizer, section splitter, phone extractor (nlp_extractor.py),
confidence scorer (confidence_scorer.py), keyword classifier
(job_classifier.py), deduplicator (deduplicator.py) and matcher
(backend/matcher.py).  Strings are modelled as `List Char`; Python
regular-expression operations are embedded as recursive functions on
character lists.
-/

namespace DEET

/-- Strings are modelled as lists of characters. -/
abbrev Str := List Char

/-- The whitespace characters recognised by Python's `str.strip()` and `\s`
(ASCII fragment). -/
def pyWs (c : Char) : Bool :=
  c == ' ' || c == '\t' || c == '\n' || c == '\r' || c == '\x0b' || c == '\x0c'

/-- Horizontal whitespace, the character class `[ \t]`. -/
def hws (c : Char) : Bool := c == ' ' || c == '\t'

/-- Embedding of Python `str.lower()` (ASCII letters). -/
def pyLower (s : Str) : Str := s.map Char.toLower

/-- Embedding of Python `str.strip()`: drop whitespace from both ends. -/
def pyStrip (s : Str) : Str :=
  ((s.dropWhile pyWs).reverse.dropWhile pyWs).reverse

/-! ## Text normalizer (`nlp_extractor._normalize_text`) -/

/-- `re.sub(r"\|", "l", text)`: replace every vertical bar by `l`. -/
def fixBars (s : Str) : Str := s.map (fun c => if c = '|' then 'l' else c)

/-- Worker for `joinSingle`; `prev` is the previous character of the
original text (`none` at the start). -/
def joinSingleAux : Option Char → Str → Str
  | _, [] => []
  | prev, c :: cs =>
    (if c = '\n' ∧ prev ≠ some '\n' ∧ cs.head? ≠ some '\n' then ' ' else c)
      :: joinSingleAux (some c) cs

/-- `re.sub(r"(?<!\n)\n(?!\n)", " ", text)`: a newline with no adjacent
newline becomes a space. -/
def joinSingle (s : Str) : Str := joinSingleAux none s

/-- Worker for `collapseNl`; `k` counts how many consecutive newlines
immediately precede the current position in the original text. -/
def collapseNlAux : Nat → Str → Str
  | _, [] => []
  | k, c :: cs =>
    if c = '\n' then
      if 2 ≤ k then collapseNlAux (k + 1) cs
      else c :: collapseNlAux (k + 1) cs
    else c :: collapseNlAux 0 cs

/-- `re.sub(r"\n{3,}", "\n\n", text)`: collapse runs of three or more
newlines to exactly two. -/
def collapseNl (s : Str) : Str := collapseNlAux 0 s

/-- Worker for `collapseWs`; the flag records that the scanner is inside a
horizontal-whitespace run of length ≥ 2 whose single replacement space has
already been emitted. -/
def cwAux : Bool → Str → Str
  | _, [] => []
  | inRun, c :: cs =>
    if hws c then
      if inRun then cwAux true cs
      else
        match cs.head? with
        | some d => if hws d then ' ' :: cwAux true cs else c :: cwAux false cs
        | none => [c]
    else c :: cwAux false cs

/-- `re.sub(r"[ \t]{2,}", " ", text)`: collapse runs of two or more
horizontal whitespace characters to a single space. -/
def collapseWs (s : Str) : Str := cwAux false s

/-- `nlp_extractor._normalize_text`: the five cleanup operations applied in
the order of the source. -/
def normalizeText (s : Str) : Str :=
  pyStrip (collapseWs (collapseNl (joinSingle (fixBars s))))

/-! ## Section splitter (`nlp_extractor.SECTION_HEADERS`, `_split_sections`)

Each header regex has the shape `(?i)^\s*(ALTERNATION)\s*$`; matching a
line is embedded as: lower-case the line, strip surrounding whitespace and
test the remaining core against the alternation.  `\s*` occurring inside
an alternative is an arbitrary run of whitespace between two literal
words. -/

/-- `s` is exactly `w` or `w` followed by a literal `s` (the regex `w s?`). -/
def optS (w : Str) (s : Str) : Bool := s == w || s == w ++ ['s']

/-- `s` matches `w1 \s* w2` (two literal words joined by optional
whitespace). -/
def sandwich (w1 w2 : Str) (s : Str) : Bool :=
  w1.isPrefixOf s && ((s.drop w1.length).dropWhile pyWs == w2)

/-- `s` matches `w1 \s* w2 s?`. -/
def sandwichOptS (w1 w2 : Str) (s : Str) : Bool :=
  w1.isPrefixOf s && optS w2 ((s.drop w1.length).dropWhile pyWs)

/-- Core of `(education|academic|qualification|degree)s?`. -/
def eduCore (s : Str) : Bool :=
  optS "education".toList s || optS "academic".toList s ||
  optS "qualification".toList s || optS "degree".toList s

/-- Core of `(work\s*experience|employment|experience|career\s*history|professional\s*experience)`. -/
def expCore (s : Str) : Bool :=
  sandwich "work".toList "experience".toList s || s == "employment".toList ||
  s == "experience".toList || sandwich "career".toList "history".toList s ||
  sandwich "professional".toList "experience".toList s

/-- Core of `(skills?|technical\s*skills?|core\s*competenc|expertise)`. -/
def skillsCore (s : Str) : Bool :=
  optS "skill".toList s || sandwichOptS "technical".toList "skill".toList s ||
  sandwich "core".toList "competenc".toList s || s == "expertise".toList

/-- Core of `(certif|licenses?|credentials?|accreditation)`. -/
def certCore (s : Str) : Bool :=
  s == "certif".toList || optS "license".toList s ||
  optS "credential".toList s || s == "accreditation".toList

/-- Core of `(projects?|portfolio|key\s*projects?)`. -/
def projCore (s : Str) : Bool :=
  optS "project".toList s || s == "portfolio".toList ||
  sandwichOptS "key".toList "project".toList s

/-- Core of `(summary|objective|profile|about\s*me|professional\s*summary)`. -/
def summaryCore (s : Str) : Bool :=
  s == "summary".toList || s == "objective".toList || s == "profile".toList ||
  sandwich "about".toList "me".toList s ||
  sandwich "professional".toList "summary".toList s

/-- Core of `(contact|personal\s*information|personal\s*details)`. -/
def contactCore (s : Str) : Bool :=
  s == "contact".toList || sandwich "personal".toList "information".toList s ||
  sandwich "personal".toList "details".toList s

/-- Core of `(references?|referees?)`. -/
def refCore (s : Str) : Bool :=
  optS "reference".toList s || optS "referee".toList s

/-- Whole-line match of one header pattern: `re.match` of
`(?i)^\s*(core)\s*$` against the line. -/
def mkHeader (core : Str → Bool) (line : Str) : Bool :=
  core (pyStrip (pyLower line))

/-- The ordered header table `SECTION_HEADERS` (order matters). -/
def SECTION_HEADERS : List (Str × (Str → Bool)) :=
  [("education".toList,       mkHeader eduCore),
   ("work_experience".toList, mkHeader expCore),
   ("skills".toList,          mkHeader skillsCore),
   ("certifications".toList,  mkHeader certCore),
   ("projects".toList,        mkHeader projCore),
   ("summary".toList,         mkHeader summaryCore),
   ("contact".toList,         mkHeader contactCore),
   ("references".toList,      mkHeader refCore)]

/-- The inner `for name, pattern in SECTION_HEADERS.items(): if
pattern.match(line): ... break` loop: the first matching header, if any. -/
def detectHeader (line : Str) : Option Str :=
  (SECTION_HEADERS.find? (fun p => p.2 line)).map (·.1)

/-- Worker for `pySplitlines`: split at newline characters. -/
def splitlinesGo : Str → List Str
  | [] => [[]]
  | c :: cs =>
    if c = '\n' then [] :: splitlinesGo cs
    else
      match splitlinesGo cs with
      | [] => [[c]]
      | l :: ls => (c :: l) :: ls

/-- Embedding of Python `str.splitlines()` for `\n`-separated text. -/
def pySplitlines (s : Str) : List Str :=
  if s = [] then []
  else if s.getLast? = some '\n' then (splitlinesGo s).dropLast
  else splitlinesGo s

/-- Python dict assignment `d[k] = v` on an insertion-ordered association
list. -/
def updateAssoc : List (Str × Str) → Str → Str → List (Str × Str)
  | [], k, v => [(k, v)]
  | (k', v') :: rest, k, v =>
    if k' = k then (k, v) :: rest else (k', v') :: updateAssoc rest k v

/-- `"\n".join(lines)`. -/
def joinNl (ls : List Str) : Str := List.intercalate ['\n'] ls

/-- The line loop of `_split_sections`: current section name, buffered
lines, accumulated sections. -/
def splitGo : List Str → Str → List Str → List (Str × Str) → List (Str × Str)
  | [], cur, buf, secs => updateAssoc secs cur (pyStrip (joinNl buf))
  | line :: rest, cur, buf, secs =>
    match detectHeader line with
    | some name => splitGo rest name [] (updateAssoc secs cur (pyStrip (joinNl buf)))
    | none => splitGo rest cur (buf ++ [line]) secs

/-- `nlp_extractor._split_sections`. -/
def splitSections (text : Str) : List (Str × Str) :=
  splitGo (pySplitlines text) "header".toList [] []

/-! ## Phone extractor (`nlp_extractor.PHONE_RE`, `_extract_phone`) -/

/-- The character class `[\d\-\(\)\s]` of `nlp_extractor.PHONE_RE`. -/
def phoneChar (c : Char) : Bool :=
  c.isDigit || c == '-' || c == '(' || c == ')' || pyWs c

/-- Worker for `phoneFindall`, embedding `re.findall` of
`(?:\+?[class]{cap-bounded})`: scan left to right; at each position match
an optional `+` followed by a greedy run of 7 up to `cap` class
characters; on success emit the match and resume after it, otherwise
advance one character.  `skip` counts characters still to be jumped over
after a match. -/
def phoneGo (cap : Nat) : Nat → Str → List Str
  | _, [] => []
  | Nat.succ k, _ :: cs => phoneGo cap k cs
  | 0, c :: cs =>
    if c = '+' then
      let run := cs.takeWhile phoneChar
      if 7 ≤ run.length then
        ('+' :: run.take cap) :: phoneGo cap (min run.length cap) cs
      else phoneGo cap 0 cs
    else
      let run := (c :: cs).takeWhile phoneChar
      if 7 ≤ run.length then
        run.take cap :: phoneGo cap (min run.length cap - 1) cs
      else phoneGo cap 0 cs

/-- `PHONE_RE.findall(text)` with the repetition upper bound `cap`
(`cap = 15` in the source). -/
def phoneFindall (cap : Nat) (s : Str) : List Str := phoneGo cap 0 s

/-- `re.sub(r"\D", "", m)` followed by `len`: the number of digits. -/
def digitCount (s : Str) : Nat := (s.filter Char.isDigit).length

/-- `7 <= len(digits) <= 15`. -/
def digitOkB (s : Str) : Bool := 7 ≤ digitCount s && digitCount s ≤ 15

/-- Stable insertion (descending by length) — one step of
`sorted(matches, key=len, reverse=True)`. -/
def insLen (x : Str) : List Str → List Str
  | [] => [x]
  | y :: ys => if x.length < y.length then y :: insLen x ys else x :: y :: ys

/-- `sorted(matches, key=len, reverse=True)`: stable, descending by
length. -/
def sortLenDesc : List Str → List Str
  | [] => []
  | x :: xs => insLen x (sortLenDesc xs)

/-- `nlp_extractor._extract_phone`: longest match with an acceptable digit
count, stripped; `""` if none qualifies. -/
def extractPhone (s : Str) : Str :=
  match (sortLenDesc (phoneFindall 15 s)).find? digitOkB with
  | some m => pyStrip m
  | none => []

/-- The extractor as the specification words it, with the loose pattern
spanning 7–20 characters instead of the source's 7–15. -/
def extractPhoneSpec (s : Str) : Str :=
  match (sortLenDesc (phoneFindall 20 s)).find? digitOkB with
  | some m => pyStrip m
  | none => []

/-! ## Confidence scorer (`confidence_scorer.py`) -/

/-- The class `[a-zA-Z0-9._%+\-]` of the local part of `EMAIL_RE`. -/
def emailLocalChar (c : Char) : Bool :=
  c.isAlpha || c.isDigit || c == '.' || c == '_' || c == '%' || c == '+' || c == '-'

/-- The class `[a-zA-Z0-9.\-]` of the domain part of `EMAIL_RE`. -/
def emailDomChar (c : Char) : Bool :=
  c.isAlpha || c.isDigit || c == '.' || c == '-'

/-- Full match of `EMAIL_RE = ^[a-zA-Z0-9._%+\-]+@[a-zA-Z0-9.\-]+\.[a-zA-Z]{2,}$`:
one `@` separating a non-empty local part from a domain whose last dot is
followed by at least two letters. -/
def emailREMatch (s : Str) : Bool :=
  let loc := s.takeWhile (fun c => c ≠ '@')
  let rest := s.drop (loc.length + 1)
  decide (loc ≠ []) && loc.all emailLocalChar &&
  (s.drop loc.length).head? == some '@' &&
  rest.all (fun c => c ≠ '@') &&
  (let tldR := rest.reverse.takeWhile (fun c => c ≠ '.')
   decide (tldR.length < rest.length) &&
   decide (2 ≤ tldR.length) && tldR.all Char.isAlpha &&
   (let dom := rest.take (rest.length - tldR.length - 1)
    decide (dom ≠ []) && dom.all emailDomChar))

/-- Full match of `PHONE_RE = ^\+?[\d\s\-\(\)]{7,20}$` from
`confidence_scorer.py`. -/
def phoneREMatch (s : Str) : Bool :=
  let t := if s.head? = some '+' then s.tail else s
  t.all phoneChar && decide (7 ≤ t.length) && decide (t.length ≤ 20)

/-- `confidence_scorer._score_email`. -/
def scoreEmail (v : Str) : ℚ :=
  if v = [] then 0
  else if emailREMatch (pyStrip v) then 1 else 2/5

/-- `confidence_scorer._score_phone`. -/
def scorePhone (v : Str) : ℚ :=
  if v = [] then 0
  else if digitOkB v && phoneREMatch (pyStrip v) then 1
  else if digitOkB v then 18/25
  else 1/4

/-! ## Keyword classifier (`job_classifier._keyword_classify`) -/

/-- Python substring containment `kw in text`. -/
def isSub (kw text : Str) : Bool :=
  text.tails.any (fun suf => kw.isPrefixOf suf)

/-- `sum(1 for kw in keywords if kw in text)`. -/
def catScore (text : Str) (kws : List Str) : Nat :=
  kws.countP (fun kw => isSub kw text)

/-- The fixed table `CATEGORY_KEYWORDS` of `job_classifier.py`. -/
def CATEGORY_KEYWORDS : List (Str × List Str) :=
  [("Information Technology".toList,
    ["software".toList, "developer".toList, "engineer".toList,
     "programmer".toList, "python".toList, "java".toList,
     "javascript".toList, "backend".toList, "frontend".toList,
     "fullstack".toList, "devops".toList, "cloud".toList, "aws".toList,
     "azure".toList, "database".toList, "sql".toList, "api".toList,
     "cybersecurity".toList, "network".toList,
     "system administrator".toList, "it support".toList,
     "data science".toList, "machine learning".toList,
     "artificial intelligence".toList, "ios".toList, "android".toList,
     "mobile".toList, "web developer".toList]),
   ("Engineering".toList,
    ["civil engineer".toList, "mechanical engineer".toList,
     "electrical engineer".toList, "structural".toList,
     "geotechnical".toList, "construction".toList, "autocad".toList,
     "solidworks".toList, "project engineer".toList,
     "site engineer".toList, "piping".toList, "hvac".toList,
     "surveyor".toList, "quantity surveyor".toList,
     "material engineer".toList]),
   ("Healthcare".toList,
    ["nurse".toList, "doctor".toList, "physician".toList,
     "pharmacist".toList, "medical".toList, "clinical".toList,
     "hospital".toList, "healthcare".toList, "patient".toList,
     "surgery".toList, "diagnosis".toList, "lab".toList,
     "radiologist".toList, "dentist".toList, "therapist".toList,
     "midwife".toList, "health officer".toList, "public health".toList,
     "nutrition".toList]),
   ("Education".toList,
    ["teacher".toList, "lecturer".toList, "professor".toList,
     "tutor".toList, "instructor".toList, "curriculum".toList,
     "school".toList, "university".toList, "college".toList,
     "education".toList, "training".toList, "trainer".toList,
     "e-learning".toList, "academic".toList, "pedagogy".toList]),
   ("Finance & Accounting".toList,
    ["accountant".toList, "auditor".toList, "finance".toList,
     "financial analyst".toList, "treasurer".toList, "budget".toList,
     "tax".toList, "bookkeeper".toList, "cpa".toList, "cfa".toList,
     "banking".toList, "investment".toList, "risk management".toList,
     "compliance".toList, "payroll".toList]),
   ("Marketing & Communications".toList,
    ["marketing".toList, "brand".toList, "social media".toList,
     "content".toList, "copywriter".toList, "seo".toList,
     "digital marketing".toList, "public relations".toList,
     "communications".toList, "advertising".toList, "campaign".toList,
     "media".toList, "journalist".toList, "editor".toList]),
   ("Administration".toList,
    ["administrative".toList, "office manager".toList,
     "receptionist".toList, "secretary".toList,
     "executive assistant".toList, "data entry".toList, "records".toList,
     "coordinator".toList, "logistics".toList, "operations".toList,
     "procurement".toList, "hr".toList, "human resource".toList,
     "recruitment".toList]),
   ("Construction & Trades".toList,
    ["carpenter".toList, "electrician".toList, "plumber".toList,
     "welder".toList, "mason".toList, "construction worker".toList,
     "foreman".toList, "technician".toList, "maintenance".toList,
     "mechanic".toList, "fitter".toList, "rigger".toList,
     "scaffolding".toList]),
   ("Agriculture".toList,
    ["agriculture".toList, "farm".toList, "agri".toList, "crops".toList,
     "livestock".toList, "fisheries".toList, "horticulture".toList,
     "agronomist".toList, "plantation".toList, "forestry".toList,
     "veterinary".toList])]

/-- The scoring loop of `_keyword_classify` over the remaining table. -/
def classifyGo (text : Str) : List (Str × List Str) → Str → Nat → Str
  | [], best, _ => best
  | (cat, kws) :: rest, best, bestScore =>
    let sc := catScore text kws
    if bestScore < sc then classifyGo text rest cat sc
    else classifyGo text rest best bestScore

/-- `job_classifier._keyword_classify`. -/
def keywordClassify (text : Str) : Str :=
  classifyGo text CATEGORY_KEYWORDS "Other".toList 0

/-! ## Deduplicator (`modules/deduplicator.py`)

The TF-IDF vectorizer and the cosine-similarity computation live in
scikit-learn; they are abstracted as an oracle supplying (a) whether
`vectorizer.transform` raises, (b) whether `fit_transform` raises on a
given corpus, and (c) the outcome of the cosine-similarity comparison
against the matrix fitted from a given corpus (`Except` for a raised
exception).  The SHA-256 digest is abstracted as an arbitrary function
`hashFn` on the raw concatenated string. -/

/-- A job dict: the four fields read by the deduplicator plus the optional
`content_hash` entry. -/
structure Job where
  title : Str
  company : Str
  location : Str
  description : Str
  contentHash : Option Str
deriving DecidableEq, Repr

/-- The raw string `f"{title.lower().strip()}|{company.lower().strip()}|{location.lower().strip()}"`. -/
def rawTriple (t c l : Str) : Str :=
  pyStrip (pyLower t) ++ '|' :: (pyStrip (pyLower c) ++ '|' :: pyStrip (pyLower l))

/-- `deduplicator._compute_hash` with the SHA-256 digest abstracted as
`hashFn`. -/
def computeHash (hashFn : Str → Str) (t c l : Str) : Str :=
  hashFn (rawTriple t c l)

/-- `job.get("content_hash") or _compute_hash(...)`: the stored hash when
present and truthy (non-empty), else the computed one. -/
def effHash (hashFn : Str → Str) (j : Job) : Str :=
  match j.contentHash with
  | some h => if h = [] then computeHash hashFn j.title j.company j.location else h
  | none => computeHash hashFn j.title j.company j.location

/-- The Job Posting invariant of the specification's data model:
`content_hash`, when stored, is the digest of the normalized triple. -/
def hashConsistent (hashFn : Str → Str) (j : Job) : Prop :=
  j.contentHash = none ∨ j.contentHash = some [] ∨
  j.contentHash = some (computeHash hashFn j.title j.company j.location)

/-- The normalized (title, company, location) triple of a job. -/
def normTriple (j : Job) : Str × Str × Str :=
  (pyStrip (pyLower j.title), pyStrip (pyLower j.company), pyStrip (pyLower j.location))

/-- `deduplicator._job_to_text`: space-joined non-empty fields
(description truncated to 500 characters), lower-cased. -/
def jobToText (j : Job) : Str :=
  pyLower (List.intercalate [' ']
    (([j.title, j.company, j.location, j.description.take 500]).filter (· ≠ [])))

/-- The mutable state of a `JobDeduplicator`: hash set, corpus, fitted
similarity model (recorded as the corpus snapshot it was fitted on, or
`none`), dirty flag. -/
structure DState where
  hashes : List Str
  corpus : List Str
  matrix : Option (List Str)
  dirty : Bool
deriving DecidableEq, Repr

/-- Oracle for the scikit-learn parts: when `transform`/`fit_transform`
raise, and the outcome of the cosine-similarity threshold test against
the model fitted on a given corpus (`Except.error` = the computation
raised). -/
structure Oracle where
  transformFails : DState → Job → Bool
  fitFails : List Str → Bool
  simHigh : List Str → Job → Except Unit Bool

/-- `JobDeduplicator.is_duplicate`, returning the result together with the
post-call state.  Any exception in the `try` block is caught and leads to
`False`. -/
def isDup (hashFn : Str → Str) (o : Oracle) (s : DState) (j : Job) : Bool × DState :=
  if effHash hashFn j ∈ s.hashes then (true, s)
  else if 2 ≤ s.corpus.length then
    if o.transformFails s j then (false, s)
    else if s.dirty || s.matrix.isNone then
      if o.fitFails s.corpus then (false, s)
      else
        let s' := { s with matrix := some s.corpus, dirty := false }
        match o.simHigh s.corpus j with
        | .ok b => (b, s')
        | .error _ => (false, s')
    else
      match o.simHigh (s.matrix.getD []) j with
      | .ok b => (b, s)
      | .error _ => (false, s)
  else (false, s)

/-- `JobDeduplicator.add_job`.  The result is `some b` for a normal return
of `b`; `none` records the one place where an exception can escape (the
unguarded `_rebuild_matrix` call on every 20th insertion). -/
def addJob (hashFn : Str → Str) (o : Oracle) (s : DState) (j : Job) :
    Option Bool × DState :=
  match isDup hashFn o s j with
  | (true, s1) => (some false, s1)
  | (false, s1) =>
    let s2 : DState :=
      { s1 with hashes := effHash hashFn j :: s1.hashes,
                corpus := s1.corpus ++ [jobToText j], dirty := true }
    if s2.corpus.length % 20 = 0 then
      if 2 ≤ s2.corpus.length then
        if o.fitFails s2.corpus then (none, s2)
        else (some true, { s2 with matrix := some s2.corpus, dirty := false })
      else (some true, s2)
    else (some true, s2)

/-- A sequence of later `add_job` calls, each with its own oracle
behaviour. -/
def runOps (hashFn : Str → Str) (s : DState) : List (Oracle × Job) → DState
  | [] => s
  | (o, j) :: rest => runOps hashFn (addJob hashFn o s j).2 rest

/-- An oracle on which no scikit-learn operation ever fails and no pair is
similar. -/
def okOracle : Oracle :=
  ⟨fun _ _ => false, fun _ => false, fun _ _ => .ok false⟩

/-! ## Matcher (`backend/matcher.py`)

The Gemini call is abstracted as its parsed outcome: `none` when every
attempt raised or failed to decode, `some parsed` for a decoded JSON
array of score dicts. -/

/-- A parsed per-job score dict; fields model `dict.get` with defaults. -/
structure SDat where
  score : Option Int
  reason : Option Str
deriving DecidableEq, Repr

/-- An annotated result row: the original job dict plus `match_score` and
`match_reason`. -/
structure MRow (α : Type) where
  job : α
  matchScore : Int
  matchReason : Str
deriving DecidableEq, Repr

/-- The fallback message of `matcher._fallback_scores`. -/
def fbMsg : Str := "Match could not be evaluated — AI service unavailable".toList

/-- `matcher._fallback_scores`. -/
def fallbackScores (count : Nat) : List SDat :=
  List.replicate count ⟨some 50, some fbMsg⟩

/-- `matcher.batch_calculate_matches`, given the parsed outcome of the
external call. -/
def batchCalc (resp : Option (List SDat)) (n : Nat) : List SDat :=
  match resp with
  | some parsed => if parsed.length = n then parsed else fallbackScores n
  | none => fallbackScores n

/-- The annotation loop of `match_jobs`: pair each job with its score dict,
falling back to `{"score": 50, "reason": "Could not evaluate match"}` when
the score list is too short. -/
def annotate {α : Type} : List α → List SDat → List (MRow α)
  | [], _ => []
  | j :: js, sd :: sds =>
    ⟨j, sd.score.getD 50, sd.reason.getD "No reason provided".toList⟩ :: annotate js sds
  | j :: js, [] =>
    ⟨j, 50, "Could not evaluate match".toList⟩ :: annotate js []

/-- Stable insertion (descending by `match_score`) — one step of
`sorted(results, key=lambda x: x["match_score"], reverse=True)`. -/
def insScore {α : Type} (x : MRow α) : List (MRow α) → List (MRow α)
  | [] => [x]
  | y :: ys =>
    if x.matchScore < y.matchScore then y :: insScore x ys else x :: y :: ys

/-- Stable descending sort by `match_score`. -/
def sortScoreDesc {α : Type} : List (MRow α) → List (MRow α)
  | [] => []
  | x :: xs => insScore x (sortScoreDesc xs)

/-- `matcher.match_jobs`, given the parsed outcome of the external call. -/
def matchJobs {α : Type} (resp : Option (List SDat)) (jobs : List α) :
    List (MRow α) :=
  if jobs.isEmpty then []
  else sortScoreDesc (annotate jobs (batchCalc resp jobs.length))

/-! ## Lemmas about the matcher's stable descending sort -/

theorem insScore_perm {α : Type} (x : MRow α) (l : List (MRow α)) :
    (insScore x l).Perm (x :: l) := by
  induction l with
  | nil => simp [insScore]
  | cons y ys ih =>
    by_cases h : x.matchScore < y.matchScore
    · simp only [insScore, if_pos h]
      exact (ih.cons y).trans (List.Perm.swap x y ys)
    · simp [insScore, if_neg h]

theorem sortScoreDesc_perm {α : Type} (l : List (MRow α)) :
    (sortScoreDesc l).Perm l := by
  induction l with
  | nil => simp [sortScoreDesc]
  | cons x xs ih => exact (insScore_perm x (sortScoreDesc xs)).trans (ih.cons x)

theorem insScore_pairwise {α : Type} (x : MRow α) (l : List (MRow α))
    (h : l.Pairwise (fun a b => b.matchScore ≤ a.matchScore)) :
    (insScore x l).Pairwise (fun a b => b.matchScore ≤ a.matchScore) := by
  induction l with
  | nil => simp [insScore]
  | cons y ys ih =>
    rcases List.pairwise_cons.mp h with ⟨hy, hys⟩
    by_cases hlt : x.matchScore < y.matchScore
    · simp only [insScore, if_pos hlt]
      refine List.pairwise_cons.mpr ⟨?_, ih hys⟩
      intro a ha
      have hmem : a = x ∨ a ∈ ys :=
        List.mem_cons.mp ((insScore_perm x ys).mem_iff.mp ha)
      rcases hmem with h1 | hmem
      · rw [h1]; omega
      · exact hy a hmem
    · simp only [insScore, if_neg hlt]
      refine List.pairwise_cons.mpr ⟨?_, h⟩
      intro a ha
      have hmem : a = y ∨ a ∈ ys := List.mem_cons.mp ha
      rcases hmem with h1 | hmem
      · rw [h1]; omega
      · have := hy a hmem
        omega

theorem sortScoreDesc_pairwise {α : Type} (l : List (MRow α)) :
    (sortScoreDesc l).Pairwise (fun a b => b.matchScore ≤ a.matchScore) := by
  induction l with
  | nil => simp [sortScoreDesc]
  | cons x xs ih => exact insScore_pairwise x (sortScoreDesc xs) ih

theorem insScore_filter {α : Type} (x : MRow α) (l : List (MRow α)) (v : Int) :
    (insScore x l).filter (fun r => r.matchScore == v) =
      if x.matchScore = v then x :: l.filter (fun r => r.matchScore == v)
      else l.filter (fun r => r.matchScore == v) := by
  induction l with
  | nil =>
    by_cases h : x.matchScore = v <;> simp [insScore, List.filter_cons, h]
  | cons y ys ih =>
    by_cases hlt : x.matchScore < y.matchScore
    · rw [show insScore x (y :: ys) = y :: insScore x ys by
        simp [insScore, if_pos hlt]]
      by_cases hx : x.matchScore = v
      · have hyv : ¬ (y.matchScore = v) := by omega
        simp [List.filter_cons, hx, hyv, ih]
      · by_cases hyv : y.matchScore = v <;>
          simp [List.filter_cons, hx, hyv, ih]
    · rw [show insScore x (y :: ys) = x :: y :: ys by
        simp [insScore, if_neg hlt]]
      by_cases hx : x.matchScore = v <;>
        simp [List.filter_cons, hx]

theorem sortScoreDesc_filter {α : Type} (l : List (MRow α)) (v : Int) :
    (sortScoreDesc l).filter (fun r => r.matchScore == v) =
      l.filter (fun r => r.matchScore == v) := by
  induction l with
  | nil => simp [sortScoreDesc]
  | cons x xs ih =>
    rw [show sortScoreDesc (x :: xs) = insScore x (sortScoreDesc xs) from rfl,
      insScore_filter]
    by_cases hx : x.matchScore = v <;>
      simp [List.filter_cons, hx, ih]

theorem insScore_allEq {α : Type} (x : MRow α) (l : List (MRow α)) (c : Int)
    (hx : x.matchScore = c) (h : ∀ r ∈ l, r.matchScore = c) :
    insScore x l = x :: l := by
  cases l with
  | nil => rfl
  | cons y ys =>
    have hy : y.matchScore = c := h y (by simp)
    have : ¬ x.matchScore < y.matchScore := by omega
    simp [insScore, this]

theorem sortScoreDesc_allEq {α : Type} (l : List (MRow α)) (c : Int)
    (h : ∀ r ∈ l, r.matchScore = c) : sortScoreDesc l = l := by
  induction l with
  | nil => rfl
  | cons x xs ih =>
    have hxs : ∀ r ∈ xs, r.matchScore = c := fun r hr => h r (by simp [hr])
    rw [sortScoreDesc, ih hxs]
    exact insScore_allEq x xs c (h x (by simp)) hxs

theorem fallbackScores_succ (n : Nat) :
    fallbackScores (n + 1) = ⟨some 50, some fbMsg⟩ :: fallbackScores n := by
  simp [fallbackScores, List.replicate]

theorem annotate_fallback {α : Type} (jobs : List α) :
    annotate jobs (fallbackScores jobs.length) =
      jobs.map (fun j => ⟨j, 50, fbMsg⟩) := by
  induction jobs with
  | nil => rfl
  | cons j js ih =>
    rw [List.length_cons, fallbackScores_succ]
    simp only [annotate, List.map_cons, ih]
    rfl

theorem annotate_fallback_scores {α : Type} (jobs : List α) :
    ∀ r ∈ annotate jobs (fallbackScores jobs.length), r.matchScore = 50 := by
  rw [annotate_fallback]
  intro r hr
  rcases List.mem_map.mp hr with ⟨j, _, rfl⟩
  rfl

/-- C9: `match_jobs` returns the input jobs annotated, sorted stably by
descending `match_score`; the empty list yields the empty list; when the
external scoring fails (`resp = none`) or its response shape mismatches,
every job gets the uniform fallback score 50 with the "could not
evaluate" reason. -/
theorem matchJobs_contract (α : Type) (resp : Option (List SDat))
    (jobs : List α) (v : Int) :
    matchJobs resp ([] : List α) = []
    ∧ (matchJobs resp jobs).Pairwise (fun a b => b.matchScore ≤ a.matchScore)
    ∧ (matchJobs resp jobs).Perm (annotate jobs (batchCalc resp jobs.length))
    ∧ (matchJobs resp jobs).filter (fun r => r.matchScore == v)
        = (annotate jobs (batchCalc resp jobs.length)).filter
            (fun r => r.matchScore == v)
    ∧ (resp = none →
        matchJobs resp jobs = jobs.map (fun j => ⟨j, 50, fbMsg⟩))
    ∧ (∀ parsed, resp = some parsed → parsed.length ≠ jobs.length →
        matchJobs resp jobs = jobs.map (fun j => ⟨j, 50, fbMsg⟩)) := by
  refine ⟨rfl, ?_, ?_, ?_, ?_, ?_⟩
  · by_cases hj : jobs.isEmpty
    · simp [matchJobs, hj]
    · simp only [matchJobs, if_neg hj]
      exact sortScoreDesc_pairwise _
  · by_cases hj : jobs.isEmpty
    · cases jobs with
      | nil => simp [matchJobs, annotate]
      | cons a l => simp [List.isEmpty] at hj
    · simp only [matchJobs, if_neg hj]
      exact sortScoreDesc_perm _
  · by_cases hj : jobs.isEmpty
    · cases jobs with
      | nil => simp [matchJobs, annotate]
      | cons a l => simp [List.isEmpty] at hj
    · simp only [matchJobs, if_neg hj]
      exact sortScoreDesc_filter _ _
  · rintro rfl
    by_cases hj : jobs.isEmpty
    · cases jobs with
      | nil => simp [matchJobs]
      | cons a l => simp [List.isEmpty] at hj
    · simp only [matchJobs, if_neg hj, batchCalc]
      rw [sortScoreDesc_allEq _ 50 (annotate_fallback_scores jobs)]
      exact annotate_fallback jobs
  · rintro parsed rfl hne
    by_cases hj : jobs.isEmpty
    · cases jobs with
      | nil => simp [matchJobs]
      | cons a l => simp [List.isEmpty] at hj
    · simp only [matchJobs, if_neg hj, batchCalc, if_neg hne]
      rw [sortScoreDesc_allEq _ 50 (annotate_fallback_scores jobs)]
      exact annotate_fallback jobs

/-- Witness for `matchJobs_contract`: two jobs, external scoring failed. -/
theorem matchJobs_contract_w :
    (none : Option (List SDat)) = none ∧
      matchJobs (none : Option (List SDat)) [1, 2] =
        [⟨1, 50, fbMsg⟩, ⟨2, 50, fbMsg⟩] :=
  ⟨rfl, by
    have h := (matchJobs_contract Nat none [1, 2] 50).2.2.2.2.1 rfl
    simpa using h⟩

/-! ## Lemmas about the keyword classifier -/

/-- The highest per-category keyword score over a table. -/
def tblMax (text : Str) (tbl : List (Str × List Str)) : Nat :=
  tbl.foldr (fun p acc => max (catScore text p.2) acc) 0

theorem le_tblMax (text : Str) (tbl : List (Str × List Str)) :
    ∀ p ∈ tbl, catScore text p.2 ≤ tblMax text tbl := by
  induction tbl with
  | nil => simp
  | cons q rest ih =>
    intro p hp
    rcases List.mem_cons.mp hp with h1 | hmem
    · rw [h1]; simp [tblMax]
    · have := ih p hmem
      simp only [tblMax, List.foldr_cons] at *
      omega

theorem tblMax_zero (text : Str) (tbl : List (Str × List Str))
    (h : ∀ p ∈ tbl, catScore text p.2 = 0) : tblMax text tbl = 0 := by
  induction tbl with
  | nil => rfl
  | cons q rest ih =>
    have hq := h q (by simp)
    have hrest := ih (fun p hp => h p (by simp [hp]))
    rw [show tblMax text (q :: rest)
        = max (catScore text q.2) (tblMax text rest) from rfl, hq, hrest]
    simp

theorem classifyGo_const (text : Str) (tbl : List (Str × List Str))
    (best : Str) (bs : Nat) (h : ∀ p ∈ tbl, catScore text p.2 ≤ bs) :
    classifyGo text tbl best bs = best := by
  induction tbl generalizing best bs with
  | nil => rfl
  | cons q rest ih =>
    have hq := h q (by simp)
    rw [classifyGo, if_neg (by omega)]
    exact ih best bs (fun p hp => h p (by simp [hp]))

theorem classifyGo_argmax (text : Str) (tbl : List (Str × List Str)) :
    ∀ (best : Str) (bs : Nat), bs < tblMax text tbl →
    ∃ pre p post, tbl = pre ++ p :: post ∧
      classifyGo text tbl best bs = p.1 ∧
      catScore text p.2 = tblMax text tbl ∧
      ∀ q' ∈ pre, catScore text q'.2 < tblMax text tbl := by
  induction tbl with
  | nil => intro best bs h; simp [tblMax] at h
  | cons q rest ih =>
    intro best bs h
    have hmax : tblMax text (q :: rest)
        = max (catScore text q.2) (tblMax text rest) := rfl
    by_cases hq : bs < catScore text q.2
    · rw [classifyGo, if_pos hq]
      by_cases hr : catScore text q.2 < tblMax text rest
      · obtain ⟨pre, p, post, hdec, h1, h2, h3⟩ := ih q.1 (catScore text q.2) hr
        refine ⟨q :: pre, p, post, by rw [hdec]; simp, h1, ?_, ?_⟩
        · rw [hmax]; omega
        · intro q' hq'
          rcases List.mem_cons.mp hq' with h4 | h4
          · rw [h4, hmax]; omega
          · have := h3 q' h4
            rw [hmax]; omega
      · have hall : ∀ p ∈ rest, catScore text p.2 ≤ catScore text q.2 := by
          intro p hp
          have := le_tblMax text rest p hp
          omega
        refine ⟨[], q, rest, rfl,
          classifyGo_const text rest q.1 (catScore text q.2) hall, ?_, by simp⟩
        rw [hmax]; omega
    · rw [classifyGo, if_neg hq]
      have hr : bs < tblMax text rest := by
        rw [hmax] at h; omega
      obtain ⟨pre, p, post, hdec, h1, h2, h3⟩ := ih best bs hr
      refine ⟨q :: pre, p, post, by rw [hdec]; simp, h1, ?_, ?_⟩
      · rw [hmax]; omega
      · intro q' hq'
        rcases List.mem_cons.mp hq' with h4 | h4
        · rw [h4, hmax]; omega
        · have := h3 q' h4
          rw [hmax]; omega

/-- C8: the keyword-scoring fallback.  Per category of the fixed table,
keywords are counted as substring matches of the (lower-cased) text; if no
category scores above zero the result is `"Other"`; otherwise the result
is the first category attaining the strictly highest count (so ties keep
the first-seen one in table order). -/
theorem keyword_classify_argmax (text : Str) :
    (tblMax text CATEGORY_KEYWORDS = 0 →
      keywordClassify text = "Other".toList)
    ∧ (∀ p ∈ CATEGORY_KEYWORDS,
        (∀ kw ∈ p.2, isSub kw text = false) → catScore text p.2 = 0)
    ∧ ((∀ p ∈ CATEGORY_KEYWORDS, catScore text p.2 = 0) →
        tblMax text CATEGORY_KEYWORDS = 0)
    ∧ (0 < tblMax text CATEGORY_KEYWORDS →
        ∃ pre p post, CATEGORY_KEYWORDS = pre ++ p :: post ∧
          keywordClassify text = p.1 ∧
          catScore text p.2 = tblMax text CATEGORY_KEYWORDS ∧
          ∀ q' ∈ pre, catScore text q'.2 < tblMax text CATEGORY_KEYWORDS) := by
  refine ⟨?_, ?_, ?_, ?_⟩
  · intro h
    apply classifyGo_const
    intro p hp
    have := le_tblMax text CATEGORY_KEYWORDS p hp
    omega
  · intro p _ h
    simp only [catScore, List.countP_eq_zero]
    intro kw hkw
    simp [h kw hkw]
  · exact tblMax_zero text CATEGORY_KEYWORDS
  · intro h
    exact classifyGo_argmax text CATEGORY_KEYWORDS "Other".toList 0 h

/-- Witness for `keyword_classify_argmax`: a text matching no keyword is
classified "Other". -/
theorem keyword_classify_argmax_w :
    tblMax "qwtz".toList CATEGORY_KEYWORDS = 0 ∧
      keywordClassify "qwtz".toList = "Other".toList :=
  ⟨by decide, (keyword_classify_argmax "qwtz".toList).1 (by decide)⟩

/-! ## The confidence scorer's format rules -/

/-- A 20-digit phone value: matches `PHONE_RE` but has too many digits. -/
def phone20 : Str := "12345678901234567890".toList

/-- C4 counterexample: `phone20` is non-empty and matches the strict format
regex `PHONE_RE`, yet `_score_phone` gives 0.25, not 1.0 — refuting "for
every non-empty value matching the strict format regex the score is
exactly 1.0" for phone. -/
theorem score_phone_regex_cex :
    phone20 ≠ [] ∧ phoneREMatch (pyStrip phone20) = true ∧
      scorePhone phone20 = 1/4 ∧ (1/4 : ℚ) ≠ 1 := by
  have hv : phone20 ≠ [] := by decide
  have hd : digitOkB phone20 = false := by decide
  exact ⟨hv, by decide, by simp [scorePhone, hv, hd], by norm_num⟩

/-- C4 (amended): email scores 1.0 on a regex match, 0.40 otherwise
(non-empty), 0.0 when empty; phone scores 1.0 only when the regex matches
AND the digit count is in [7,15]; with an acceptable digit count but no
regex match it scores 0.72; with an unacceptable digit count it scores
0.25 regardless of the regex; 0.0 when empty. -/
theorem score_email_phone_rules (v : Str) :
    (scoreEmail [] = 0 ∧ scorePhone [] = 0)
    ∧ (v ≠ [] → emailREMatch (pyStrip v) = true → scoreEmail v = 1)
    ∧ (v ≠ [] → emailREMatch (pyStrip v) = false → scoreEmail v = 2/5)
    ∧ (v ≠ [] → phoneREMatch (pyStrip v) = true → digitOkB v = true →
        scorePhone v = 1)
    ∧ (v ≠ [] → phoneREMatch (pyStrip v) = false → digitOkB v = true →
        scorePhone v = 18/25)
    ∧ (v ≠ [] → digitOkB v = false → scorePhone v = 1/4) := by
  refine ⟨⟨rfl, rfl⟩, ?_, ?_, ?_, ?_, ?_⟩
  · intro hv hm
    simp [scoreEmail, hv, hm]
  · intro hv hm
    simp [scoreEmail, hv, hm]
  · intro hv hm hd
    simp [scorePhone, hv, hm, hd]
  · intro hv hm hd
    simp [scorePhone, hv, hm, hd]
  · intro hv hd
    simp [scorePhone, hv, hd]

/-- Witness for `score_email_phone_rules`: a valid email and a valid
phone. -/
theorem score_email_phone_rules_w :
    ("a@b.com".toList ≠ [] ∧ emailREMatch (pyStrip "a@b.com".toList) = true ∧
      scoreEmail "a@b.com".toList = 1)
    ∧ (phoneREMatch (pyStrip "+254 712-345-678".toList) = true ∧
        digitOkB "+254 712-345-678".toList = true ∧
        scorePhone "+254 712-345-678".toList = 1) :=
  ⟨⟨by decide, by decide,
      (score_email_phone_rules "a@b.com".toList).2.1 (by decide) (by decide)⟩,
   ⟨by decide, by decide,
      (score_email_phone_rules "+254 712-345-678".toList).2.2.2.1
        (by decide) (by decide) (by decide)⟩⟩

/-! ## Lemmas about the phone extractor -/

theorem insLen_perm (x : Str) (l : List Str) : (insLen x l).Perm (x :: l) := by
  induction l with
  | nil => simp [insLen]
  | cons y ys ih =>
    by_cases h : x.length < y.length
    · simp only [insLen, if_pos h]
      exact (ih.cons y).trans (List.Perm.swap x y ys)
    · simp [insLen, if_neg h]

theorem sortLenDesc_perm (l : List Str) : (sortLenDesc l).Perm l := by
  induction l with
  | nil => simp [sortLenDesc]
  | cons x xs ih => exact (insLen_perm x (sortLenDesc xs)).trans (ih.cons x)

theorem insLen_pairwise (x : Str) (l : List Str)
    (h : l.Pairwise (fun a b => b.length ≤ a.length)) :
    (insLen x l).Pairwise (fun a b => b.length ≤ a.length) := by
  induction l with
  | nil => simp [insLen]
  | cons y ys ih =>
    rcases List.pairwise_cons.mp h with ⟨hy, hys⟩
    by_cases hlt : x.length < y.length
    · simp only [insLen, if_pos hlt]
      refine List.pairwise_cons.mpr ⟨?_, ih hys⟩
      intro a ha
      have hmem : a = x ∨ a ∈ ys :=
        List.mem_cons.mp ((insLen_perm x ys).mem_iff.mp ha)
      rcases hmem with h1 | hmem
      · rw [h1]; omega
      · exact hy a hmem
    · simp only [insLen, if_neg hlt]
      refine List.pairwise_cons.mpr ⟨?_, h⟩
      intro a ha
      rcases List.mem_cons.mp ha with h1 | hmem
      · rw [h1]; omega
      · have := hy a hmem
        omega

theorem sortLenDesc_pairwise (l : List Str) :
    (sortLenDesc l).Pairwise (fun a b => b.length ≤ a.length) := by
  induction l with
  | nil => simp [sortLenDesc]
  | cons x xs ih => exact insLen_pairwise x (sortLenDesc xs) ih

theorem find?_decomp {α : Type} (p : α → Bool) (l : List α) (m : α)
    (h : l.find? p = some m) :
    ∃ l₁ l₂, l = l₁ ++ m :: l₂ ∧ (∀ x ∈ l₁, p x = false) ∧ p m = true := by
  induction l with
  | nil => simp [List.find?] at h
  | cons x xs ih =>
    by_cases hx : p x
    · rw [List.find?_cons_of_pos _ hx] at h
      obtain rfl : x = m := by injection h
      exact ⟨[], xs, rfl, by simp, hx⟩
    · rw [List.find?_cons_of_neg _ (by simpa using hx)] at h
      obtain ⟨l₁, l₂, rfl, h1, h2⟩ := ih h
      exact ⟨x :: l₁, l₂, rfl, by
        intro y hy
        rcases List.mem_cons.mp hy with h3 | h3
        · rw [h3]; simpa using hx
        · exact h1 y h3, h2⟩

/-- C5 (amended; the loose pattern spans 7–15 characters, not 7–20):
`_extract_phone` returns the empty string when no `PHONE_RE` match has a
digit count in [7,15]; otherwise it returns, stripped of surrounding
whitespace, a qualifying match of maximal length. -/
theorem extract_phone_longest (s : Str) :
    ((∀ m ∈ phoneFindall 15 s, digitOkB m = false) → extractPhone s = [])
    ∧ (∀ m, m ∈ phoneFindall 15 s → digitOkB m = true →
        ∃ mBest, mBest ∈ phoneFindall 15 s ∧ digitOkB mBest = true ∧
          extractPhone s = pyStrip mBest ∧
          ∀ m2 ∈ phoneFindall 15 s, digitOkB m2 = true →
            m2.length ≤ mBest.length) := by
  constructor
  · intro h
    have hnone : (sortLenDesc (phoneFindall 15 s)).find? digitOkB = none := by
      rw [List.find?_eq_none]
      intro x hx
      have := h x ((sortLenDesc_perm (phoneFindall 15 s)).subset hx)
      simp [this]
    simp [extractPhone, hnone]
  · intro m hm hok
    have hmem : m ∈ sortLenDesc (phoneFindall 15 s) :=
      (sortLenDesc_perm (phoneFindall 15 s)).mem_iff.mpr hm
    have hsome : ((sortLenDesc (phoneFindall 15 s)).find? digitOkB).isSome := by
      rw [List.find?_isSome]
      exact ⟨m, hmem, hok⟩
    obtain ⟨mBest, hfind⟩ := Option.isSome_iff_exists.mp hsome
    obtain ⟨l₁, l₂, hdec, hl₁, hbest⟩ := find?_decomp _ _ _ hfind
    refine ⟨mBest, ?_, hbest, ?_, ?_⟩
    · apply (sortLenDesc_perm (phoneFindall 15 s)).subset
      rw [hdec]
      simp
    · simp [extractPhone, hfind]
    · intro m2 hm2 hok2
      have hmem2 : m2 ∈ sortLenDesc (phoneFindall 15 s) :=
        (sortLenDesc_perm (phoneFindall 15 s)).mem_iff.mpr hm2
      rw [hdec] at hmem2
      rcases List.mem_append.mp hmem2 with h1 | h1
      · have := hl₁ m2 h1
        rw [hok2] at this
        cases this
      · rcases List.mem_cons.mp h1 with h2 | h2
        · rw [h2]
        · have hpw := sortLenDesc_pairwise (phoneFindall 15 s)
          rw [hdec] at hpw
          have := (List.pairwise_append.mp hpw).2.1
          exact (List.pairwise_cons.mp this).1 m2 h2

/-- Witness for `extract_phone_longest`: a text with no qualifying match
yields the empty string. -/
theorem extract_phone_longest_w :
    (∀ m ∈ phoneFindall 15 "no phone here".toList, digitOkB m = false) ∧
      extractPhone "no phone here".toList = [] :=
  ⟨by decide, (extract_phone_longest "no phone here".toList).1 (by decide)⟩

/-- A bare run of sixteen digits. -/
def digits16 : Str := "1234567890123456".toList

/-- C5 counterexample: on sixteen consecutive digits the claim's 7–20-char
pattern yields one 16-digit match (digit count 16, unacceptable), so the
claimed extractor returns the empty string; the code's 7–15-char pattern
matches the first fifteen digits and `_extract_phone` returns them. -/
theorem extract_phone_spec_cex :
    extractPhoneSpec digits16 = [] ∧
      extractPhone digits16 = "123456789012345".toList ∧
      "123456789012345".toList ≠ ([] : Str) := by
  refine ⟨by decide, by decide, by decide⟩

/-! ## Lemmas about the text normalizer -/

theorem joinSingleAux_get? (s : Str) :
    ∀ (prev : Option Char) (i : Nat),
      (joinSingleAux prev s).get? i = (s.get? i).map (fun c =>
        if c = '\n' ∧ (if i = 0 then prev else s.get? (i - 1)) ≠ some '\n'
            ∧ s.get? (i + 1) ≠ some '\n'
        then ' ' else c) := by
  induction s with
  | nil => intro prev i; simp [joinSingleAux]
  | cons c cs ih =>
    intro prev i
    cases i with
    | zero =>
      simp only [joinSingleAux, List.get?_cons_zero, Option.map_some]
      congr 1
      cases hq : cs.head? <;>
        rw [List.head?_eq_getElem?] at hq <;>
        simp [List.get?_cons_succ, List.get?_eq_getElem?, hq]
    | succ j =>
      simp only [joinSingleAux, List.get?_cons_succ]
      rw [ih (some c) j]
      cases j with
      | zero => cases hq : cs.get? 0 <;> simp [hq]
      | succ k => cases hq : cs.get? (k + 1) <;> simp [hq]

theorem joinSingle_get? (s : Str) (i : Nat) :
    (joinSingle s).get? i = (s.get? i).map (fun c =>
      if c = '\n' ∧ (i = 0 ∨ s.get? (i - 1) ≠ some '\n')
          ∧ s.get? (i + 1) ≠ some '\n'
      then ' ' else c) := by
  rw [joinSingle, joinSingleAux_get? s none i]
  by_cases hi : i = 0 <;> cases hq : s.get? i <;> simp [hi, hq]

theorem collapseNlAux_reset (rest : Str) (hrest : rest.head? ≠ some '\n')
    (j j' : Nat) : collapseNlAux j rest = collapseNlAux j' rest := by
  cases rest with
  | nil => rfl
  | cons c cs =>
    have hc : ¬ c = '\n' := by
      intro h
      exact hrest (by simp [h])
    simp [collapseNlAux, hc]

theorem collapseNlAux_run (rest : Str) (hrest : rest.head? ≠ some '\n') :
    ∀ (k j : Nat), collapseNlAux j (List.replicate k '\n' ++ rest)
      = List.replicate (min k (2 - j)) '\n' ++ collapseNlAux 0 rest := by
  intro k
  induction k with
  | zero =>
    intro j
    simpa using collapseNlAux_reset rest hrest j 0
  | succ k ih =>
    intro j
    rw [List.replicate_succ, List.cons_append]
    by_cases hj : 2 ≤ j
    · rw [show collapseNlAux j ('\n' :: (List.replicate k '\n' ++ rest))
          = collapseNlAux (j + 1) (List.replicate k '\n' ++ rest) by
        simp [collapseNlAux, hj]]
      rw [ih (j + 1)]
      have h1 : min k (2 - (j + 1)) = 0 := by omega
      have h2 : min (k + 1) (2 - j) = 0 := by omega
      rw [h1, h2]
    · rw [show collapseNlAux j ('\n' :: (List.replicate k '\n' ++ rest))
          = '\n' :: collapseNlAux (j + 1) (List.replicate k '\n' ++ rest) by
        simp [collapseNlAux, hj]]
      rw [ih (j + 1)]
      have h1 : min (k + 1) (2 - j) = min k (2 - (j + 1)) + 1 := by omega
      rw [h1, List.replicate_succ, List.cons_append]

theorem collapseNl_run (rest : Str) (hrest : rest.head? ≠ some '\n')
    (k : Nat) : collapseNl (List.replicate k '\n' ++ rest)
      = List.replicate (min k 2) '\n' ++ collapseNl rest := by
  rw [collapseNl, collapseNlAux_run rest hrest k 0, collapseNl]

theorem dropWhile_append_all (p : Char → Bool) (l₁ l₂ : Str)
    (h : l₁.all p = true) : (l₁ ++ l₂).dropWhile p = l₂.dropWhile p := by
  induction l₁ with
  | nil => simp
  | cons c cs ih =>
    have hc : p c = true := by
      rw [List.all_cons] at h
      exact (Bool.and_eq_true_iff.mp h).1
    have hcs : cs.all p = true := by
      rw [List.all_cons] at h
      exact (Bool.and_eq_true_iff.mp h).2
    simp [List.dropWhile, hc, ih hcs]

theorem dropWhile_head_neg (p : Char → Bool) (l : Str)
    (h : ∀ c, l.head? = some c → p c = false) : l.dropWhile p = l := by
  cases l with
  | nil => rfl
  | cons c cs => simp [List.dropWhile, h c rfl]

theorem cwAux_swallow (run2 rest : Str) (h : run2.all hws = true) :
    cwAux true (run2 ++ rest) = cwAux true rest := by
  induction run2 with
  | nil => rfl
  | cons c cs ih =>
    rw [List.all_cons, Bool.and_eq_true_iff] at h
    simp [cwAux, h.1, ih h.2]

theorem cwAux_true_reset (rest : Str)
    (h : ∀ c, rest.head? = some c → hws c = false) :
    cwAux true rest = cwAux false rest := by
  cases rest with
  | nil => rfl
  | cons c cs => simp [cwAux, h c rfl]

theorem collapseWs_run (run rest : Str) (hne : run ≠ [])
    (hall : run.all hws = true)
    (hrest : ∀ c, rest.head? = some c → hws c = false) :
    collapseWs (run ++ rest)
      = (if 2 ≤ run.length then [' '] else run) ++ collapseWs rest := by
  cases run with
  | nil => exact absurd rfl hne
  | cons c run2 =>
    have hc : hws c = true := by
      rw [List.all_cons, Bool.and_eq_true_iff] at hall
      exact hall.1
    cases run2 with
    | nil =>
      cases rest with
      | nil => simp [collapseWs, cwAux, hc]
      | cons d rest2 =>
        have hd : hws d = false := hrest d rfl
        simp [collapseWs, cwAux, hc, hd]
    | cons d run3 =>
      have hall2 : (d :: run3).all hws = true := by
        rw [List.all_cons, Bool.and_eq_true_iff] at hall
        exact hall.2
      have hd : hws d = true := by
        rw [List.all_cons, Bool.and_eq_true_iff] at hall2
        exact hall2.1
      have hlen : 2 ≤ (c :: d :: run3).length := by simp
      rw [if_pos hlen]
      rw [show (c :: d :: run3) ++ rest = c :: ((d :: run3) ++ rest) from rfl]
      rw [show collapseWs (c :: ((d :: run3) ++ rest))
          = ' ' :: cwAux true ((d :: run3) ++ rest) by
        simp [collapseWs, cwAux, hc, hd]]
      rw [cwAux_swallow _ _ hall2, cwAux_true_reset rest hrest]
      rfl

theorem takeWhile_all (p : Char → Bool) (l : Str) :
    (l.takeWhile p).all p = true := by
  induction l with
  | nil => simp
  | cons c cs ih =>
    by_cases h : p c <;> simp [List.takeWhile, h, ih]

theorem pyStrip_decomp (l : Str) :
    ∃ w1 w2 : Str, l = w1 ++ pyStrip l ++ w2 ∧
      w1.all pyWs = true ∧ w2.all pyWs = true := by
  refine ⟨l.takeWhile pyWs,
    ((l.dropWhile pyWs).reverse.takeWhile pyWs).reverse, ?_, takeWhile_all _ _, ?_⟩
  · conv_lhs => rw [← List.takeWhile_append_dropWhile pyWs l]
    rw [List.append_assoc]
    congr 1
    have hsplit : (l.dropWhile pyWs).reverse
        = (l.dropWhile pyWs).reverse.takeWhile pyWs
          ++ (l.dropWhile pyWs).reverse.dropWhile pyWs :=
      (List.takeWhile_append_dropWhile pyWs (l.dropWhile pyWs).reverse).symm
    calc l.dropWhile pyWs = (l.dropWhile pyWs).reverse.reverse := by simp
    _ = ((l.dropWhile pyWs).reverse.takeWhile pyWs
          ++ (l.dropWhile pyWs).reverse.dropWhile pyWs).reverse := by
        rw [← hsplit]
    _ = pyStrip l ++ ((l.dropWhile pyWs).reverse.takeWhile pyWs).reverse := by
        rw [List.reverse_append]
        rfl
  · have h := takeWhile_all pyWs (l.dropWhile pyWs).reverse
    rw [List.all_eq_true] at h ⊢
    intro x hx
    exact h x (List.mem_reverse.mp hx)

/-- C6: the normalizer applies exactly the five operations in the source's
order (bar repair, single-line-break joining, blank-line collapsing,
horizontal-whitespace collapsing, trim) and maps the empty input to the
empty output.  The conjuncts characterise each operation: bar repair and
line-break joining pointwise (a newline becomes a space exactly when
neither neighbour is a newline), newline-run and horizontal-whitespace-run
collapsing on arbitrary runs, and the final trim as removal of a
whitespace prefix and suffix. -/
theorem normalize_text_ops (s : Str) (i k : Nat) (nlRest wsRun wsRest : Str) :
    normalizeText [] = []
    ∧ normalizeText s = pyStrip (collapseWs (collapseNl (joinSingle (fixBars s))))
    ∧ (fixBars s).get? i = (s.get? i).map (fun c => if c = '|' then 'l' else c)
    ∧ (joinSingle s).get? i = (s.get? i).map (fun c =>
        if c = '\n' ∧ (i = 0 ∨ s.get? (i - 1) ≠ some '\n')
            ∧ s.get? (i + 1) ≠ some '\n'
        then ' ' else c)
    ∧ (nlRest.head? ≠ some '\n' →
        collapseNl (List.replicate k '\n' ++ nlRest)
          = List.replicate (min k 2) '\n' ++ collapseNl nlRest)
    ∧ (wsRun ≠ [] → wsRun.all hws = true →
        (∀ c, wsRest.head? = some c → hws c = false) →
        collapseWs (wsRun ++ wsRest)
          = (if 2 ≤ wsRun.length then [' '] else wsRun) ++ collapseWs wsRest)
    ∧ (∃ w1 w2 : Str,
        collapseWs (collapseNl (joinSingle (fixBars s)))
          = w1 ++ normalizeText s ++ w2 ∧
        w1.all pyWs = true ∧ w2.all pyWs = true) := by
  refine ⟨rfl, rfl, ?_, joinSingle_get? s i, ?_, ?_, ?_⟩
  · rw [fixBars, List.get?_map]
  · intro h
    exact collapseNl_run nlRest h k
  · intro h1 h2 h3
    exact collapseWs_run wsRun wsRest h1 h2 h3
  · exact pyStrip_decomp _

/-- Witness for `normalize_text_ops`: five newlines before a letter
collapse to two; two tabs before a letter collapse to one space. -/
theorem normalize_text_ops_w :
    (("a".toList : Str).head? ≠ some '\n' ∧
      collapseNl (List.replicate 5 '\n' ++ "a".toList)
        = List.replicate 2 '\n' ++ collapseNl "a".toList)
    ∧ (("\t\t".toList : Str) ≠ [] ∧
        collapseWs ("\t\t".toList ++ "a".toList)
          = [' '] ++ collapseWs "a".toList) := by
  have h1 := (normalize_text_ops [] 0 5 "a".toList "\t\t".toList "a".toList).2.2.2.2.1
  have h2 := (normalize_text_ops [] 0 5 "a".toList "\t\t".toList "a".toList).2.2.2.2.2.1
  refine ⟨⟨by decide, by simpa using h1 (by decide)⟩,
    ⟨by decide, ?_⟩⟩
  have := h2 (by decide) (by decide) (by decide)
  simpa using this

/-! ## Lemmas about the section splitter -/

theorem mkHeader_anchor (coreB : Str → Bool) (line : Str)
    (h : mkHeader coreB line = true) :
    ∃ w1 w2 : Str, pyLower line = w1 ++ pyStrip (pyLower line) ++ w2 ∧
      w1.all pyWs = true ∧ w2.all pyWs = true ∧
      coreB (pyStrip (pyLower line)) = true := by
  obtain ⟨w1, w2, he, h1, h2⟩ := pyStrip_decomp (pyLower line)
  exact ⟨w1, w2, he, h1, h2, h⟩

/-- C7: header patterns are anchored whole-line patterns and the splitter
keeps the first matching pattern in enumeration order.  Conjunct 1: when
any header matches a line, `detectHeader` returns the first matching entry
of the table (every earlier pattern fails on the line).  Conjunct 2: a
matching line is, after lower-casing, whitespace followed by the matched
core (the whole stripped line) followed by whitespace — so a keyword
buried mid-sentence cannot match.  Conjuncts 3–4 exhibit this on a prose
line containing "Experienced … python". -/
theorem section_headers_anchored (line : Str) :
    (∀ (name : Str) (f : Str → Bool), (name, f) ∈ SECTION_HEADERS →
      f line = true →
      ∃ pre q post, SECTION_HEADERS = pre ++ q :: post ∧
        detectHeader line = some q.1 ∧ q.2 line = true ∧
        ∀ z ∈ pre, z.2 line = false)
    ∧ (∀ (name : Str) (f : Str → Bool), (name, f) ∈ SECTION_HEADERS →
        f line = true →
        ∃ (coreB : Str → Bool) (w1 w2 : Str), f = mkHeader coreB ∧
          pyLower line = w1 ++ pyStrip (pyLower line) ++ w2 ∧
          w1.all pyWs = true ∧ w2.all pyWs = true ∧
          coreB (pyStrip (pyLower line)) = true)
    ∧ detectHeader "Experienced in python".toList = none
    ∧ splitSections "Experienced in python\nSkills\nPython, SQL".toList
        = [("header".toList, "Experienced in python".toList),
           ("skills".toList, "Python, SQL".toList)] := by
  refine ⟨?_, ?_, by decide, by decide⟩
  · intro name f hmem hf
    have hsome : (SECTION_HEADERS.find? (fun p => p.2 line)).isSome := by
      rw [List.find?_isSome]
      exact ⟨(name, f), hmem, hf⟩
    obtain ⟨q, hq⟩ := Option.isSome_iff_exists.mp hsome
    obtain ⟨pre, post, hdec, hpre, hqt⟩ := find?_decomp _ _ _ hq
    exact ⟨pre, q, post, hdec, by rw [detectHeader, hq]; rfl, hqt, hpre⟩
  · intro name f hmem hf
    rw [SECTION_HEADERS] at hmem
    simp only [List.mem_cons, List.mem_singleton, Prod.mk.injEq,
      List.not_mem_nil, or_false] at hmem
    rcases hmem with ⟨_, rfl⟩ | ⟨_, rfl⟩ | ⟨_, rfl⟩ | ⟨_, rfl⟩ |
      ⟨_, rfl⟩ | ⟨_, rfl⟩ | ⟨_, rfl⟩ | ⟨_, rfl⟩
    · exact ⟨eduCore, (mkHeader_anchor eduCore line hf).imp
        (fun w1 h => h.imp (fun w2 h => ⟨rfl, h.1, h.2.1, h.2.2.1, h.2.2.2⟩))⟩
    · exact ⟨expCore, (mkHeader_anchor expCore line hf).imp
        (fun w1 h => h.imp (fun w2 h => ⟨rfl, h.1, h.2.1, h.2.2.1, h.2.2.2⟩))⟩
    · exact ⟨skillsCore, (mkHeader_anchor skillsCore line hf).imp
        (fun w1 h => h.imp (fun w2 h => ⟨rfl, h.1, h.2.1, h.2.2.1, h.2.2.2⟩))⟩
    · exact ⟨certCore, (mkHeader_anchor certCore line hf).imp
        (fun w1 h => h.imp (fun w2 h => ⟨rfl, h.1, h.2.1, h.2.2.1, h.2.2.2⟩))⟩
    · exact ⟨projCore, (mkHeader_anchor projCore line hf).imp
        (fun w1 h => h.imp (fun w2 h => ⟨rfl, h.1, h.2.1, h.2.2.1, h.2.2.2⟩))⟩
    · exact ⟨summaryCore, (mkHeader_anchor summaryCore line hf).imp
        (fun w1 h => h.imp (fun w2 h => ⟨rfl, h.1, h.2.1, h.2.2.1, h.2.2.2⟩))⟩
    · exact ⟨contactCore, (mkHeader_anchor contactCore line hf).imp
        (fun w1 h => h.imp (fun w2 h => ⟨rfl, h.1, h.2.1, h.2.2.1, h.2.2.2⟩))⟩
    · exact ⟨refCore, (mkHeader_anchor refCore line hf).imp
        (fun w1 h => h.imp (fun w2 h => ⟨rfl, h.1, h.2.1, h.2.2.1, h.2.2.2⟩))⟩

/-- Witness for `section_headers_anchored`: the line `"  TECHNICAL SKILLS "`
matches the skills header. -/
theorem section_headers_anchored_w :
    ("skills".toList, mkHeader skillsCore) ∈ SECTION_HEADERS
    ∧ mkHeader skillsCore "  TECHNICAL SKILLS ".toList = true
    ∧ ∃ pre q post, SECTION_HEADERS = pre ++ q :: post ∧
        detectHeader "  TECHNICAL SKILLS ".toList = some q.1 ∧
        q.2 "  TECHNICAL SKILLS ".toList = true ∧
        ∀ z ∈ pre, z.2 "  TECHNICAL SKILLS ".toList = false := by
  have hmem : ("skills".toList, mkHeader skillsCore) ∈ SECTION_HEADERS := by
    rw [SECTION_HEADERS]
    exact List.mem_cons_of_mem _ (List.mem_cons_of_mem _ (List.mem_cons_self _ _))
  have hf : mkHeader skillsCore "  TECHNICAL SKILLS ".toList = true := by decide
  exact ⟨hmem, hf,
    (section_headers_anchored "  TECHNICAL SKILLS ".toList).1 _ _ hmem hf⟩

/-! ## Lemmas about the deduplicator -/

theorem isDup_hashMem (hashFn : Str → Str) (o : Oracle) (s : DState) (j : Job)
    (h : effHash hashFn j ∈ s.hashes) : isDup hashFn o s j = (true, s) := by
  rw [isDup, if_pos h]

theorem isDup_frame (hashFn : Str → Str) (o : Oracle) (s : DState) (j : Job) :
    (isDup hashFn o s j).2.hashes = s.hashes ∧
      (isDup hashFn o s j).2.corpus = s.corpus := by
  by_cases h1 : effHash hashFn j ∈ s.hashes
  · simp [isDup, h1]
  · by_cases h2 : 2 ≤ s.corpus.length
    · by_cases h3 : o.transformFails s j = true
      · simp [isDup, h1, h2, h3]
      · rw [Bool.not_eq_true] at h3
        by_cases h4 : (s.dirty || s.matrix.isNone) = true
        · by_cases h5 : o.fitFails s.corpus = true
          · simp [isDup, h1, h2, h3, h4, h5]
          · rw [Bool.not_eq_true] at h5
            cases h6 : o.simHigh s.corpus j <;>
              simp [isDup, h1, h2, h3, h4, h5, h6]
        · rw [Bool.not_eq_true] at h4
          cases h6 : o.simHigh (s.matrix.getD []) j <;>
            simp [isDup, h1, h2, h3, h4, h6]
    · simp [isDup, h1, h2]

theorem addJob_hashMem (hashFn : Str → Str) (o : Oracle) (s : DState) (j : Job)
    (h : effHash hashFn j ∈ s.hashes) : addJob hashFn o s j = (some false, s) := by
  rw [addJob, isDup_hashMem hashFn o s j h]

theorem addJob_hashes_superset (hashFn : Str → Str) (o : Oracle) (s : DState)
    (j : Job) (x : Str) (hx : x ∈ s.hashes) :
    x ∈ (addJob hashFn o s j).2.hashes := by
  rcases hd : isDup hashFn o s j with ⟨b, s1⟩
  have h1 : s1.hashes = s.hashes := by
    have := (isDup_frame hashFn o s j).1
    rw [hd] at this
    exact this
  rw [addJob, hd]
  cases b
  · simp only
    split
    · split
      · split <;> simp [h1, hx]
      · simp [h1, hx]
    · simp [h1, hx]
  · simpa [h1] using hx

theorem addJob_true_mem (hashFn : Str → Str) (o : Oracle) (s : DState) (j : Job)
    (h : (addJob hashFn o s j).1 = some true) :
    effHash hashFn j ∈ (addJob hashFn o s j).2.hashes := by
  rcases hd : isDup hashFn o s j with ⟨b, s1⟩
  cases b
  · rw [addJob, hd]
    simp only
    split
    · split
      · split <;> simp
      · simp
    · simp
  · rw [addJob, hd] at h
    simp at h

theorem runOps_hashes_superset (hashFn : Str → Str) :
    ∀ (ops : List (Oracle × Job)) (s : DState) (x : Str),
      x ∈ s.hashes → x ∈ (runOps hashFn s ops).hashes
  | [], _, _, hx => hx
  | (o, j) :: rest, s, x, hx =>
    runOps_hashes_superset hashFn rest (addJob hashFn o s j).2 x
      (addJob_hashes_superset hashFn o s j x hx)

theorem hashConsistent_effHash (hashFn : Str → Str) (j : Job)
    (h : hashConsistent hashFn j) :
    effHash hashFn j = computeHash hashFn j.title j.company j.location := by
  rcases h with h | h | h <;> rw [effHash, h] <;> simp

theorem computeHash_congr (hashFn : Str → Str) (j j2 : Job)
    (ht : normTriple j2 = normTriple j) :
    computeHash hashFn j2.title j2.company j2.location
      = computeHash hashFn j.title j.company j.location := by
  rw [normTriple, normTriple, Prod.mk.injEq, Prod.mk.injEq] at ht
  obtain ⟨h1, h2, h3⟩ := ht
  rw [computeHash, computeHash, rawTriple, rawTriple, h1, h2, h3]

/-- C1: a job whose (effective) content hash is already recorded is
rejected by `add_job` with the whole state unchanged; once `add_job` has
accepted a job, any later `add_job` (after arbitrary further calls) with
the same normalized (title, company, location) triple — hashes stored per
the data-model invariant — returns `False`; in particular adding the same
exact job twice returns `True` then `False`. -/
theorem add_job_duplicate_rules (hashFn : Str → Str) (o o2 : Oracle)
    (s : DState) (j j2 : Job) (ops : List (Oracle × Job))
    (hc : hashConsistent hashFn j) (hc2 : hashConsistent hashFn j2)
    (ht : normTriple j2 = normTriple j)
    (hadd : (addJob hashFn o s j).1 = some true) :
    (∀ (o' : Oracle) (s' : DState) (j' : Job),
        effHash hashFn j' ∈ s'.hashes →
        addJob hashFn o' s' j' = (some false, s'))
    ∧ (addJob hashFn o2 (runOps hashFn (addJob hashFn o s j).2 ops) j2).1
        = some false
    ∧ (addJob hashFn o2 (addJob hashFn o s j).2 j).1 = some false := by
  have hmem : effHash hashFn j ∈ (addJob hashFn o s j).2.hashes :=
    addJob_true_mem hashFn o s j hadd
  refine ⟨fun o' s' j' h => addJob_hashMem hashFn o' s' j' h, ?_, ?_⟩
  · have heq : effHash hashFn j2 = effHash hashFn j := by
      rw [hashConsistent_effHash hashFn j hc, hashConsistent_effHash hashFn j2 hc2]
      exact computeHash_congr hashFn j j2 ht
    have hmem2 : effHash hashFn j2 ∈
        (runOps hashFn (addJob hashFn o s j).2 ops).hashes := by
      rw [heq]
      exact runOps_hashes_superset hashFn ops _ _ hmem
    rw [addJob_hashMem hashFn o2 _ j2 hmem2]
  · rw [addJob_hashMem hashFn o2 _ j hmem]

/-- The empty deduplicator state. -/
def s0 : DState := ⟨[], [], none, false⟩

/-- A sample job (no stored hash). -/
def j1 : Job :=
  ⟨"Software Engineer".toList, "TechCorp".toList, "Nairobi".toList,
    "Great job".toList, none⟩

/-- The same posting with different case, surrounding whitespace and
description. -/
def j1b : Job :=
  ⟨" software ENGINEER ".toList, "techcorp".toList, " NAIROBI".toList,
    "different description".toList, none⟩

/-- Witness for `add_job_duplicate_rules`: adding `j1` to the empty index
succeeds, after which the re-worded duplicate `j1b` is rejected. -/
theorem add_job_duplicate_rules_w :
    hashConsistent id j1 ∧ normTriple j1b = normTriple j1 ∧
      (addJob id okOracle s0 j1).1 = some true ∧
      (addJob id okOracle (runOps id (addJob id okOracle s0 j1).2 []) j1b).1
        = some false :=
  ⟨Or.inl rfl, by decide, by decide,
    (add_job_duplicate_rules id okOracle okOracle s0 j1 j1b []
      (Or.inl rfl) (Or.inl rfl) (by decide) (by decide)).2.1⟩

/-- C2: `compute_hash` is a pure function of the lower-cased trimmed
triple: triples equal modulo case and surrounding whitespace hash equal,
and the description plays no role — two job dicts identical except for
their descriptions have equal effective hashes, so after one is added the
other is rejected. -/
theorem compute_hash_pure (hashFn : Str → Str) (t c l t' c' l' : Str)
    (h1 : pyStrip (pyLower t) = pyStrip (pyLower t'))
    (h2 : pyStrip (pyLower c) = pyStrip (pyLower c'))
    (h3 : pyStrip (pyLower l) = pyStrip (pyLower l')) :
    computeHash hashFn t c l = computeHash hashFn t' c' l'
    ∧ ∀ (o o2 : Oracle) (s : DState) (j j2 : Job),
        j2.title = j.title → j2.company = j.company →
        j2.location = j.location → j2.contentHash = j.contentHash →
        effHash hashFn j2 = effHash hashFn j ∧
        ((addJob hashFn o s j).1 = some true →
          (addJob hashFn o2 (addJob hashFn o s j).2 j2).1 = some false) := by
  constructor
  · rw [computeHash, computeHash, rawTriple, rawTriple, h1, h2, h3]
  · intro o o2 s j j2 e1 e2 e3 e4
    have heq : effHash hashFn j2 = effHash hashFn j := by
      rw [effHash, effHash, e1, e2, e3, e4]
    refine ⟨heq, fun hadd => ?_⟩
    have hmem : effHash hashFn j2 ∈ (addJob hashFn o s j).2.hashes := by
      rw [heq]
      exact addJob_true_mem hashFn o s j hadd
    rw [addJob_hashMem hashFn o2 _ j2 hmem]

/-- `j1` with only the description changed (extra whitespace). -/
def j1c : Job :=
  ⟨"Software Engineer".toList, "TechCorp".toList, "Nairobi".toList,
    "Great  job ".toList, none⟩

/-- Witness for `compute_hash_pure`: hashes ignore case, surrounding
whitespace and the description. -/
theorem compute_hash_pure_w :
    pyStrip (pyLower " ENGINEER".toList) = pyStrip (pyLower "engineer ".toList)
    ∧ computeHash id " ENGINEER".toList "Corp".toList "City".toList
        = computeHash id "engineer ".toList "Corp".toList "City".toList
    ∧ effHash id j1c = effHash id j1
    ∧ ((addJob id okOracle s0 j1).1 = some true →
        (addJob id okOracle (addJob id okOracle s0 j1).2 j1c).1 = some false) :=
  ⟨by decide,
    (compute_hash_pure id " ENGINEER".toList "Corp".toList "City".toList
      "engineer ".toList "Corp".toList "City".toList
      (by decide) (by decide) (by decide)).1,
    ((compute_hash_pure id "a".toList "a".toList "a".toList
        "a".toList "a".toList "a".toList rfl rfl rfl).2
      okOracle okOracle s0 j1 j1c rfl rfl rfl rfl).1,
    ((compute_hash_pure id "a".toList "a".toList "a".toList
        "a".toList "a".toList "a".toList rfl rfl rfl).2
      okOracle okOracle s0 j1 j1c rfl rfl rfl rfl).2⟩

/-- C3: any exception inside the near-duplicate similarity computation is
caught: when the exact-hash check misses, a failure of the transform, the
model refit or the cosine comparison makes `is_duplicate` return `False`
(and when the exact-hash check hits it returns `True`); the function
always returns a Boolean, never propagating the exception. -/
theorem is_duplicate_fails_open (hashFn : Str → Str) (o : Oracle)
    (s : DState) (j : Job) :
    (effHash hashFn j ∈ s.hashes → isDup hashFn o s j = (true, s))
    ∧ (effHash hashFn j ∉ s.hashes → o.transformFails s j = true →
        (isDup hashFn o s j).1 = false)
    ∧ (effHash hashFn j ∉ s.hashes → o.transformFails s j = false →
        (s.dirty || s.matrix.isNone) = true → o.fitFails s.corpus = true →
        (isDup hashFn o s j).1 = false)
    ∧ (effHash hashFn j ∉ s.hashes → o.transformFails s j = false →
        (s.dirty || s.matrix.isNone) = true → o.fitFails s.corpus = false →
        o.simHigh s.corpus j = .error () →
        (isDup hashFn o s j).1 = false)
    ∧ (effHash hashFn j ∉ s.hashes → o.transformFails s j = false →
        (s.dirty || s.matrix.isNone) = false →
        o.simHigh (s.matrix.getD []) j = .error () →
        (isDup hashFn o s j).1 = false) := by
  refine ⟨isDup_hashMem hashFn o s j, ?_, ?_, ?_, ?_⟩
  · intro h1 h3
    by_cases h2 : 2 ≤ s.corpus.length
    · simp [isDup, h1, h2, h3]
    · simp [isDup, h1, h2]
  · intro h1 h3 h4 h5
    by_cases h2 : 2 ≤ s.corpus.length
    · simp [isDup, h1, h2, h3, h4, h5]
    · simp [isDup, h1, h2]
  · intro h1 h3 h4 h5 h6
    by_cases h2 : 2 ≤ s.corpus.length
    · simp [isDup, h1, h2, h3, h4, h5, h6]
    · simp [isDup, h1, h2]
  · intro h1 h3 h4 h6
    by_cases h2 : 2 ≤ s.corpus.length
    · simp [isDup, h1, h2, h3, h4, h6]
    · simp [isDup, h1, h2]

/-- An oracle on which every scikit-learn operation fails. -/
def errOracle : Oracle :=
  ⟨fun _ _ => true, fun _ => true, fun _ _ => .error ()⟩

/-- A dirty two-document state with no recorded hashes. -/
def s2d : DState := ⟨[], ["doc one".toList, "doc two".toList], none, true⟩

/-- Witness for `is_duplicate_fails_open`: with a failing transform the
query returns `False` instead of raising. -/
theorem is_duplicate_fails_open_w :
    effHash id j1 ∉ s2d.hashes ∧ errOracle.transformFails s2d j1 = true ∧
      (isDup id errOracle s2d j1).1 = false :=
  ⟨by decide, rfl,
    (is_duplicate_fails_open id errOracle s2d j1).2.1 (by decide) rfl⟩

/-- C10 (amended: the rebuild happens only when the exact-hash check does
not already answer `True`): `is_duplicate` never changes the hash set or
the corpus, and when the exact-hash check misses, the corpus has at least
two entries, the model is dirty or absent, and the transform and refit
succeed, it refits the model over the full corpus and clears the dirty
flag. -/
theorem is_duplicate_rebuild_frame (hashFn : Str → Str) (o : Oracle)
    (s : DState) (j : Job) :
    ((isDup hashFn o s j).2.hashes = s.hashes ∧
      (isDup hashFn o s j).2.corpus = s.corpus)
    ∧ (effHash hashFn j ∉ s.hashes → 2 ≤ s.corpus.length →
        (s.dirty || s.matrix.isNone) = true →
        o.transformFails s j = false → o.fitFails s.corpus = false →
        (isDup hashFn o s j).2.matrix = some s.corpus ∧
          (isDup hashFn o s j).2.dirty = false) := by
  refine ⟨isDup_frame hashFn o s j, ?_⟩
  intro h1 h2 h4 h3 h5
  cases h6 : o.simHigh s.corpus j <;>
    simp [isDup, h1, h2, h3, h4, h5, h6]

/-- A job carrying the already-recorded hash of `cexSt`. -/
def cexJob : Job :=
  ⟨"T".toList, "C".toList, "L".toList, "D".toList, some "h0".toList⟩

/-- A dirty state with two corpus entries whose hash set already holds
`cexJob`'s hash. -/
def cexSt : DState :=
  ⟨["h0".toList], ["doc one".toList, "doc two".toList], none, true⟩

/-- C10 counterexample: a fully successful `is_duplicate` call on a dirty
state with a two-entry corpus that hits the exact-hash check does NOT
rebuild the model — the matrix stays absent and the dirty flag stays set,
refuting "whenever the corpus has ≥ 2 entries and the matrix is dirty or
absent, a successful call rebuilds the model". -/
theorem is_dup_no_rebuild_cex :
    2 ≤ cexSt.corpus.length ∧ cexSt.dirty = true ∧ cexSt.matrix = none ∧
      isDup id okOracle cexSt cexJob = (true, cexSt) ∧
      (isDup id okOracle cexSt cexJob).2.matrix = none ∧
      (isDup id okOracle cexSt cexJob).2.dirty = true := by
  refine ⟨by decide, rfl, rfl, by decide, by decide, by decide⟩

/-- Witness for `is_duplicate_rebuild_frame`: on a miss with a dirty
two-document corpus and a successful computation the model is refit and
the dirty flag cleared. -/
theorem is_duplicate_rebuild_frame_w :
    effHash id j1 ∉ s2d.hashes ∧ 2 ≤ s2d.corpus.length ∧
      (s2d.dirty || s2d.matrix.isNone) = true ∧
      (isDup id okOracle s2d j1).2.matrix = some s2d.corpus ∧
      (isDup id okOracle s2d j1).2.dirty = false :=
  ⟨by decide, by decide, rfl,
    ((is_duplicate_rebuild_frame id okOracle s2d j1).2
      (by decide) (by decide) rfl rfl rfl).1,
    ((is_duplicate_rebuild_frame id okOracle s2d j1).2
      (by decide) (by decide) rfl rfl rfl).2⟩

end DEET
